import Mathlib

/-!
# simple_shell: numeric helpers (`count_letter.c`)

A shallow embedding of `long_to_string`, `_atoi` and `count_characters`
together with the properties the shell relies on when it expands `$?` and `$$`
and when it reads the argument of `exit`.

Conventions of the embedding

* A `char` is its byte value, a natural number (`'0'` is 48, `'-'` is 45,
  `'+'` is 43, `'a'` is 97, NUL is 0).
* Memory reached through a `char *` is the list of the bytes of the object the
  pointer addresses.  A read sees NUL after the listed bytes, the terminator
  every C string has.  A store outside the listed bytes is undefined: the list
  is the whole buffer, and its length is the room the caller gave.  A C string
  is a list read up to its first NUL (`c_string`).
* `long` and `int` values are integers; `unsigned int` arithmetic is reduced
  modulo `2 ^ 32`; a step that C leaves undefined (signed overflow, division by
  zero, reading outside `letters`, a store outside the buffer) or a loop that
  never ends yields `none`.
-/

namespace SimpleShell

/-! ## Machine constants (LP64) -/

/-- Largest `long`. -/
def LONG_MAX : Int := 9223372036854775807

/-- Smallest `long`. -/
def LONG_MIN : Int := -9223372036854775808

/-- Largest `int`. -/
def INT_MAX : Int := 2147483647

/-- Number of values of an `unsigned int`. -/
def UINT_MOD : Nat := 4294967296

/-! ## Memory -/

/-- Read `string[i]`. -/
def load (string : List Nat) (i : Nat) : Nat :=
  string.getD i 0

/-- Write `string[i] = c`; outside the buffer the store is undefined. -/
def store (string : List Nat) (i : Nat) (c : Nat) : Option (List Nat) :=
  if i < string.length then some (string.set i c) else none

/-- The C string held in a buffer: its bytes up to the first NUL. -/
def c_string (string : List Nat) : List Nat :=
  string.takeWhile (fun c => c ≠ 0)

/-- Bytes of a Lean string literal, used to write C strings readably. -/
def bytes (s : String) : List Nat :=
  s.toList.map Char.toNat

/-- Modelled from the spec: `str_reverse` of `helpers_string.c`, whose body is not
part of the sources at hand; it reverses the NUL-terminated string in place and
leaves the terminator and what follows it untouched. -/
def str_reverse (string : List Nat) : List Nat :=
  (c_string string).reverse ++ string.drop (c_string string).length

/-! ## `long_to_string` -/

/-- `char letters[] = {"0123456789abcdef"}`: sixteen digits and the closing NUL. -/
def letters : List Nat :=
  [48, 49, 50, 51, 52, 53, 54, 55, 56, 57, 97, 98, 99, 100, 101, 102, 0]

/-- The `while (cc)` loop of `long_to_string`.  `/` and `%` of C truncate towards
zero (`Int.tdiv`, `Int.tmod`), so the subscript of `letters` is never negative.
The first argument bounds the number of iterations. -/
def long_to_string_loop (base : Int) : Nat → Int → List Nat → Nat → Option (List Nat × Nat)
  | 0, cc, string, index => if cc = 0 then some (string, index) else none
  | fuel + 1, cc, string, index =>
    if cc = 0 then some (string, index)
    else if base = 0 then none
    else if cc = LONG_MIN ∧ base = -1 then none
    else
      let digit : Int := if cc < 0 then -(Int.tmod cc base) else Int.tmod cc base
      match letters.get? digit.toNat with
      | none => none
      | some c =>
        match store string index c with
        | none => none
        | some string =>
          long_to_string_loop base fuel (Int.tdiv cc base) string (index + 1)

/-- The function `long_to_string(varber, string, base)`; the result is the buffer after the
call.  The loop divides `cc` by `base` until it is zero, which for a base of
absolute value at least two takes at most `|varber|` rounds.  The read of
`string[0]` needs a byte to read: on an empty buffer the first store that
follows is already undefined. -/
def long_to_string (varber : Int) (string : List Nat) (base : Int) : Option (List Nat) := do
  let cc := varber
  let (string, index) ←
    if cc = 0 then (store string 0 48).map (fun s => (s, 1)) else some (string, 0)
  let inNegative : Int := if load string 0 = 45 then 1 else 0
  let (string, index) ← long_to_string_loop base cc.natAbs cc string index
  let (string, index) ←
    if inNegative ≠ 0 then (store string index 45).map (fun s => (s, index + 1))
    else some (string, index)
  let string ← store string index 0
  some (str_reverse string)

/-! ## `_atoi` -/

/-- First loop of `_atoi`: skip everything up to the first digit or the end of the
string, flipping `sign` at each `'-'`.  Returns the sign and the advanced pointer. -/
def _atoi_sign : List Nat → Int → Int × List Nat
  | [], sign => (sign, [])
  | c :: s, sign =>
    if ¬ (48 ≤ c ∧ c ≤ 57) ∧ c ≠ 0 then
      let sign := if c = 45 then sign * -1 else sign
      let sign := if c = 43 then sign * 1 else sign
      _atoi_sign s sign
    else (sign, c :: s)

/-- Second loop of `_atoi`: accumulate digits in the `unsigned int var`. -/
def _atoi_digits : List Nat → Nat → Nat
  | [], var => var
  | c :: s, var =>
    if 48 ≤ c ∧ c ≤ 57 ∧ c ≠ 0 then
      _atoi_digits s ((var * 10 + (c - 48)) % UINT_MOD)
    else var

/-- Conversion of an `unsigned int` to `int`, wrapping modulo `2 ^ 32`. -/
def to_int (u : Nat) : Int :=
  if (u % UINT_MOD : Nat) ≤ 2147483647 then ((u % UINT_MOD : Nat) : Int)
  else ((u % UINT_MOD : Nat) : Int) - 4294967296

/-- The function `_atoi(s)`; `var * sign` is computed in `unsigned int` and returned as `int`. -/
def _atoi (s : List Nat) : Int :=
  let (sign, s) := _atoi_sign s 1
  let var := _atoi_digits s 0
  to_int (var * (sign % 4294967296).toNat)

/-! ## `count_characters` -/

/-- The `for` loop of `count_characters`; `i` and `count` are `int`, whose
increment beyond `INT_MAX` is undefined. -/
def count_characters_loop (c0 : Nat) : List Nat → Int → Int → Option Int
  | [], _, count => some count
  | x :: string, i, count =>
    if x = 0 then some count
    else if x = c0 then
      if count + 1 > INT_MAX then none
      else if i + 1 > INT_MAX then none
      else count_characters_loop c0 string (i + 1) (count + 1)
    else
      if i + 1 > INT_MAX then none
      else count_characters_loop c0 string (i + 1) count

/-- The function `count_characters(string, character)`. -/
def count_characters (string character : List Nat) : Option Int :=
  count_characters_loop (load character 0) string 0 0

/-! ## Reading numerals (specification side) -/

/-- Value of a digit character of `"0123456789abcdef"`. -/
def digit_value (c : Nat) : Nat :=
  if c ≤ 57 then c - 48 else c - 87

/-- Whether `c` is one of the characters `"0123456789abcdef"`. -/
def is_letter (c : Nat) : Bool :=
  (48 ≤ c && c ≤ 57) || (97 ≤ c && c ≤ 102)

/-- Value of a string read as a base-`b` numeral, most significant digit first. -/
def numeral_value (b : Nat) (s : List Nat) : Nat :=
  s.foldl (fun acc c => acc * b + digit_value c) 0

/-- Canonical decimal representation of a natural number: `"0"` for zero, else its
decimal digits, most significant first. -/
def decimal (n : Nat) : List Nat :=
  if n = 0 then [48] else ((Nat.digits 10 n).reverse).map (fun d => d + 48)

/-- Digit character of a value below sixteen. -/
def letter (d : Nat) : Nat :=
  if d < 10 then d + 48 else d + 87

/-- Base-`b` representation of a natural number: `"0"` for zero, else its base-`b`
digits, most significant first, written with `"0123456789abcdef"`. -/
def numeral (b n : Nat) : List Nat :=
  if n = 0 then [48] else ((Nat.digits b n).reverse).map letter

/-- Text that `long_to_string` leaves for the value `n` in base `b` when the first
byte of the buffer was `first` before the call. -/
def long_to_string_text (n : Int) (first : Nat) (b : Nat) : List Nat :=
  (if n ≠ 0 ∧ first = 45 then [45] else []) ++ numeral b n.natAbs

/-! ## Memory lemmas -/

theorem store_seq (buf w : List Nat) (c : Nat) :
    store (w ++ buf.drop w.length) w.length c =
      if w.length < buf.length then some ((w ++ [c]) ++ buf.drop (w.length + 1)) else none := by
  by_cases h : w.length < buf.length
  · rw [if_pos h]
    have hd : buf.drop w.length = buf.get ⟨w.length, h⟩ :: buf.drop (w.length + 1) := by
      simp
    generalize buf.get ⟨w.length, h⟩ = x at hd
    generalize buf.drop (w.length + 1) = rs at hd ⊢
    rw [hd]
    simp [store]
  · rw [if_neg h]
    have hd : buf.drop w.length = [] := List.drop_eq_nil_of_le (by omega)
    rw [hd]
    simp [store]

theorem c_string_append_nul (w rest : List Nat) (hw : ∀ c ∈ w, c ≠ 0) :
    c_string (w ++ 0 :: rest) = w := by
  induction w with
  | nil => simp [c_string]
  | cons a w ih =>
    have ha : a ≠ 0 := hw a (by simp)
    have := ih (fun c hc => hw c (by simp [hc]))
    simp [c_string, List.takeWhile_cons, ha] at this ⊢
    exact this

theorem str_reverse_append_nul (w rest : List Nat) (hw : ∀ c ∈ w, c ≠ 0) :
    str_reverse (w ++ 0 :: rest) = w.reverse ++ 0 :: rest := by
  simp [str_reverse, c_string_append_nul w rest hw]

/-! ## The digit loop -/

theorem letters_get (d : Nat) (hd : d < 16) : letters.get? d = some (letter d) := by
  interval_cases d <;> rfl

theorem letter_ne_zero (d : Nat) : letter d ≠ 0 := by
  unfold letter; split <;> omega

theorem digit_subscript (cc : Int) (b : Nat) :
    (if cc < 0 then -(Int.tmod cc b) else Int.tmod cc b).toNat = cc.natAbs % b := by
  rcases cc with m | m
  · have h : ¬ (Int.ofNat m < 0) := by simp
    rw [if_neg h]; rfl
  · have h : (Int.negSucc m < 0) := Int.negSucc_lt_zero m
    rw [if_pos h]
    show (-(-(Int.ofNat ((m + 1) % b)))).toNat = _
    rw [Int.neg_neg]; rfl

/-- The loop writes the digits of `|cc|`, least significant first, after the bytes
`w` already written, when the buffer has room for them, and is undefined when it
has not.  Any bound of at least `|cc|` rounds gives this result. -/
theorem long_to_string_loop_spec (b : Nat) (hb : 2 ≤ b) (hb16 : b ≤ 16) (buf : List Nat) :
    ∀ (fuel : Nat) (cc : Int) (w : List Nat), cc.natAbs ≤ fuel → w.length ≤ buf.length →
      long_to_string_loop b fuel cc (w ++ buf.drop w.length) w.length =
        if w.length + (Nat.digits b cc.natAbs).length ≤ buf.length then
          some ((w ++ (Nat.digits b cc.natAbs).map letter) ++
                  buf.drop (w.length + (Nat.digits b cc.natAbs).length),
                w.length + (Nat.digits b cc.natAbs).length)
        else none := by
  intro fuel
  induction fuel with
  | zero =>
    intro cc w h hw
    have hz : cc = 0 := by omega
    subst hz
    simp [long_to_string_loop, hw]
  | succ fuel ih =>
    intro cc w h hw
    by_cases hz : cc = 0
    · subst hz
      simp [long_to_string_loop, hw]
    · have hpos : 0 < cc.natAbs := Int.natAbs_pos.mpr hz
      have hb0 : (b : Int) ≠ 0 := by omega
      have hb1 : ¬ (cc = LONG_MIN ∧ (b : Int) = -1) := by omega
      have hlt : cc.natAbs % b < 16 := lt_of_lt_of_le (Nat.mod_lt _ (by omega)) hb16
      have hdiv : (Int.tdiv cc b).natAbs = cc.natAbs / b := by
        rw [Int.natAbs_tdiv]; rfl
      have hle : (Int.tdiv cc b).natAbs ≤ fuel := by
        rw [hdiv]
        have : cc.natAbs / b ≤ cc.natAbs / 2 := Nat.div_le_div_left hb (by omega)
        omega
      rw [long_to_string_loop, if_neg hz, if_neg hb0, if_neg hb1]
      simp only [digit_subscript, letters_get _ hlt, store_seq]
      rw [Nat.digits_def' (by omega) hpos]
      by_cases hroom : w.length < buf.length
      · have hstep := ih (Int.tdiv cc b) (w ++ [letter (cc.natAbs % b)]) hle
          (by simp; omega)
        simp only [List.length_append, List.length_singleton, hdiv] at hstep
        simp only [if_pos hroom, hstep, List.length_cons, List.map_cons]
        by_cases hall : w.length + ((Nat.digits b (cc.natAbs / b)).length + 1) ≤ buf.length
        · have hall2 : w.length + 1 + (Nat.digits b (cc.natAbs / b)).length ≤ buf.length := by
            omega
          rw [if_pos hall, if_pos hall2]
          simp [Nat.add_comm, Nat.add_left_comm]
        · have hall2 : ¬ (w.length + 1 + (Nat.digits b (cc.natAbs / b)).length
              ≤ buf.length) := by omega
          rw [if_neg hall, if_neg hall2]
      · have hall : ¬ (w.length + ((cc.natAbs % b) :: Nat.digits b (cc.natAbs / b)).length
            ≤ buf.length) := by
          simp only [List.length_cons]; omega
        simp only [if_neg hroom, if_neg hall]

theorem long_to_string_text_ne_zero (n : Int) (first b : Nat) :
    ∀ c ∈ long_to_string_text n first b, c ≠ 0 := by
  intro c hc
  unfold long_to_string_text numeral at hc
  rcases List.mem_append.mp hc with h | h
  · split at h
    · simp at h; omega
    · simp at h
  · split at h
    · simp at h; omega
    · simp only [List.mem_map] at h
      obtain ⟨d, _, rfl⟩ := h
      exact letter_ne_zero d

/-- Storing the terminator after the bytes `w` and reversing. -/
theorem store_nul_reverse (buf w : List Nat) (hw : ∀ c ∈ w, c ≠ 0) :
    (store (w ++ buf.drop w.length) w.length 0).bind (fun s => some (str_reverse s)) =
      if w.length < buf.length then some (w.reverse ++ 0 :: buf.drop (w.length + 1))
      else none := by
  rw [store_seq]
  by_cases h : w.length < buf.length
  · have h2 := str_reverse_append_nul w (buf.drop (w.length + 1)) hw
    simp only [if_pos h, Option.some_bind, List.append_assoc, List.singleton_append, h2]
  · simp only [if_neg h, Option.none_bind]

/-- What `long_to_string` does in a base from 2 to 16: with room for the text and the
terminator it leaves the text, the NUL and the untouched tail of the buffer;
with less room a store falls outside the buffer. -/
theorem long_to_string_spec (n : Int) (buf : List Nat) (b : Nat) (hb : 2 ≤ b) (hb16 : b ≤ 16) :
    long_to_string n buf b =
      if (long_to_string_text n (load buf 0) b).length < buf.length then
        some (long_to_string_text n (load buf 0) b ++
          0 :: buf.drop ((long_to_string_text n (load buf 0) b).length + 1))
      else none := by
  by_cases hn : n = 0
  · subst hn
    have h1 := store_seq buf [] 48
    have h2 := store_nul_reverse buf [48] (by simp)
    simp only [List.nil_append, List.length_nil, List.drop_zero, Nat.zero_add] at h1
    simp only [List.length_singleton] at h2
    simp only [long_to_string, long_to_string_text, numeral, h1]
    by_cases hlen : 0 < buf.length
    · simp only [if_pos hlen]
      simpa [long_to_string_loop, load] using h2
    · have : buf.length = 0 := by omega
      simp [this]
  · have hloop := long_to_string_loop_spec b hb hb16 buf n.natAbs n [] le_rfl (Nat.zero_le _)
    simp only [List.nil_append, List.length_nil, List.drop_zero, Nat.zero_add] at hloop
    have hne : n.natAbs ≠ 0 := by simpa using hn
    have hL : ∀ c ∈ List.map letter (Nat.digits b n.natAbs), c ≠ 0 := by
      intro c hc
      obtain ⟨d, _, rfl⟩ := List.mem_map.mp hc
      exact letter_ne_zero d
    simp only [long_to_string, if_neg hn, long_to_string_text, numeral, if_neg hne]
    simp only [Option.bind_eq_bind, Option.some_bind, hloop]
    by_cases hroom : (Nat.digits b n.natAbs).length ≤ buf.length
    · by_cases h45 : load buf 0 = 45
      · have h2 := store_seq buf (List.map letter (Nat.digits b n.natAbs)) 45
        have h4 := store_nul_reverse buf (List.map letter (Nat.digits b n.natAbs) ++ [45])
          (by
            intro c hc
            rcases List.mem_append.mp hc with h | h
            · exact hL c h
            · simp at h; omega)
        simp only [List.length_map] at h2
        simp only [List.length_append, List.length_map, List.length_singleton] at h4
        by_cases hsign : (Nat.digits b n.natAbs).length < buf.length
        · simp only [if_pos hroom, if_pos hsign, h45, h2, Option.some_bind, Option.map_some',
            if_true, ne_eq, one_ne_zero, not_false_eq_true]
          simpa [hn, Nat.add_comm, Nat.add_left_comm] using h4
        · have hno : ¬ ((Nat.digits b n.natAbs).length + 1 < buf.length) := by omega
          simp [hroom, hsign, h45, h2, hn, hno]
      · have h4 := store_nul_reverse buf (List.map letter (Nat.digits b n.natAbs)) hL
        simp only [List.length_map] at h4
        simp only [if_pos hroom]
        simpa [h45, Nat.add_comm] using h4
    · simp only [if_neg hroom]
      by_cases h45 : load buf 0 = 45
      · have hno : ¬ ((Nat.digits b n.natAbs).length + 1 < buf.length) := by omega
        simp [h45, hn, hno]
      · have hno : ¬ ((Nat.digits b n.natAbs).length < buf.length) := by omega
        simp [h45, hno]

/-! ## Numerals -/

theorem digit_value_letter (d : Nat) (hd : d < 16) : digit_value (letter d) = d := by
  unfold digit_value letter
  split <;> split <;> omega

theorem is_letter_letter (d : Nat) (hd : d < 16) : is_letter (letter d) = true := by
  interval_cases d <;> rfl

theorem letter_eq_zero_digit (d : Nat) (h : letter d = 48) : d = 0 := by
  unfold letter at h
  split at h <;> omega

theorem numeral_value_digits (b : Nat) (ds : List Nat) (hds : ∀ d ∈ ds, d < 16) :
    numeral_value b ((ds.reverse).map letter) = Nat.ofDigits b ds := by
  induction ds with
  | nil => simp [numeral_value]
  | cons d t ih =>
    have ht := ih (fun x hx => hds x (by simp [hx]))
    have hd := digit_value_letter d (hds d (by simp))
    unfold numeral_value at ht ⊢
    simp only [List.reverse_cons, List.map_append, List.map_cons, List.map_nil,
      List.foldl_append, List.foldl_cons, List.foldl_nil, ht, hd, Nat.ofDigits_cons]
    ring

/-- The value `numeral_value` is the usual positional value of the digit list. -/
theorem numeral_value_eq_ofDigits (b : Nat) (s : List Nat) :
    numeral_value b s = Nat.ofDigits b ((s.reverse).map digit_value) := by
  induction s using List.reverseRecOn with
  | nil => simp [numeral_value]
  | append_singleton t c ih =>
    unfold numeral_value at ih ⊢
    simp only [List.foldl_append, List.foldl_cons, List.foldl_nil, ih, List.reverse_append,
      List.reverse_cons, List.reverse_nil, List.nil_append, List.singleton_append,
      List.map_cons, Nat.ofDigits_cons]
    ring

theorem numeral_ne_nil (b m : Nat) : numeral b m ≠ [] := by
  unfold numeral
  split
  · simp
  · rename_i h
    simp only [ne_eq, List.map_eq_nil_iff, List.reverse_eq_nil_iff]
    exact fun h0 => h (Nat.digits_eq_nil_iff_eq_zero.mp h0)

theorem numeral_letters (b m : Nat) (hb : 2 ≤ b) (hb16 : b ≤ 16) :
    ∀ c ∈ numeral b m, is_letter c = true ∧ digit_value c < b := by
  intro c hc
  unfold numeral at hc
  split at hc
  · simp only [List.mem_singleton] at hc
    subst hc
    exact ⟨rfl, by simp [digit_value]; omega⟩
  · obtain ⟨d, hd, rfl⟩ := List.mem_map.mp hc
    have hlt : d < b := Nat.digits_lt_base (by omega) (List.mem_reverse.mp hd)
    exact ⟨is_letter_letter d (by omega), by rw [digit_value_letter d (by omega)]; exact hlt⟩

theorem numeral_no_leading_zero (b m : Nat) (h : (numeral b m).head? = some 48) : m = 0 := by
  by_contra hm
  unfold numeral at h
  rw [if_neg hm, List.head?_map, List.head?_reverse] at h
  have hlast := Nat.getLast_digit_ne_zero b hm
  rw [List.getLast?_eq_getLast _ (Nat.digits_ne_nil_iff_ne_zero.mpr hm)] at h
  simp only [Option.map_some', Option.some.injEq] at h
  exact hlast (letter_eq_zero_digit _ h)

theorem numeral_value_numeral (b m : Nat) (hb : 2 ≤ b) (hb16 : b ≤ 16) :
    numeral_value b (numeral b m) = m := by
  unfold numeral
  split
  · rename_i h
    subst h
    simp [numeral_value, digit_value]
  · rw [numeral_value_digits b _ (fun d hd => by
      have := Nat.digits_lt_base (b := b) (by omega) hd
      omega), Nat.ofDigits_digits]

theorem numeral_ten (m : Nat) : numeral 10 m = decimal m := by
  unfold numeral decimal
  split
  · rfl
  · apply List.map_congr_left
    intro d hd
    have := Nat.digits_lt_base (b := 10) (by omega) (List.mem_reverse.mp hd)
    simp [letter, this]

theorem long_to_string_text_plain (n : Int) (first b : Nat) (h : first ≠ 45) :
    long_to_string_text n first b = numeral b n.natAbs := by
  simp [long_to_string_text, h]

/-! ## `_atoi` lemmas -/

theorem _atoi_sign_digit_head (c : Nat) (s : List Nat) (sign : Int) (hc : 48 ≤ c ∧ c ≤ 57) :
    _atoi_sign (c :: s) sign = (sign, c :: s) := by
  simp [_atoi_sign, hc]

theorem foldl_digits_mod (s : List Nat) : ∀ a : Nat,
    s.foldl (fun acc c => acc * 10 + digit_value c) (a % UINT_MOD) % UINT_MOD =
      s.foldl (fun acc c => acc * 10 + digit_value c) a % UINT_MOD := by
  induction s with
  | nil => intro a; simp
  | cons c s ih =>
    intro a
    simp only [List.foldl_cons]
    rw [← ih (a % UINT_MOD * 10 + digit_value c), ← ih (a * 10 + digit_value c)]
    congr 2
    rw [Nat.add_mod, Nat.mul_mod, Nat.mod_mod, ← Nat.mul_mod, ← Nat.add_mod]

/-- On memory that starts with digits up to a NUL, the second loop computes the
numeral's value modulo `2 ^ 32`. -/
theorem _atoi_digits_spec (t rest : List Nat) (ht : ∀ c ∈ t, 48 ≤ c ∧ c ≤ 57) :
    ∀ var : Nat, var < UINT_MOD →
      _atoi_digits (t ++ 0 :: rest) var =
        t.foldl (fun acc c => acc * 10 + digit_value c) var % UINT_MOD := by
  induction t with
  | nil =>
    intro var hvar
    simp [_atoi_digits, Nat.mod_eq_of_lt hvar]
  | cons c t ih =>
    intro var hvar
    have hc := ht c (by simp)
    have hc0 : c ≠ 0 := by omega
    have hdv : digit_value c = c - 48 := by simp [digit_value, hc.2]
    have hM : 0 < UINT_MOD := by decide
    rw [List.cons_append, _atoi_digits, if_pos ⟨hc.1, hc.2, hc0⟩,
      ih (fun x hx => ht x (by simp [hx])) _ (Nat.mod_lt _ hM), List.foldl_cons,
      ← hdv, foldl_digits_mod]

theorem to_int_small (v : Nat) (hv : v ≤ 2147483647) : to_int v = v := by
  have h : v % UINT_MOD = v := Nat.mod_eq_of_lt (by unfold UINT_MOD; omega)
  simp [to_int, h, hv]

/-- The function `_atoi` on memory holding a non-empty digit string, a NUL and anything after. -/
theorem _atoi_digit_string (t rest : List Nat) (hne : t ≠ [])
    (ht : ∀ c ∈ t, 48 ≤ c ∧ c ≤ 57) (hv : numeral_value 10 t ≤ 2147483647) :
    _atoi (t ++ 0 :: rest) = numeral_value 10 t := by
  obtain ⟨c, t', rfl⟩ := List.exists_cons_of_ne_nil hne
  have hsign := _atoi_sign_digit_head c (t' ++ 0 :: rest) 1 (ht c (by simp))
  have hdig := _atoi_digits_spec (c :: t') rest ht 0 (by decide)
  have hmod : numeral_value 10 (c :: t') % UINT_MOD = numeral_value 10 (c :: t') :=
    Nat.mod_eq_of_lt (by unfold UINT_MOD; omega)
  unfold numeral_value at hv hmod ⊢
  rw [hmod] at hdig
  simp only [_atoi, List.cons_append, hsign] at hdig ⊢
  rw [hdig]
  have h1 : ((1 : Int) % 4294967296).toNat = 1 := by decide
  rw [h1, Nat.mul_one]
  exact to_int_small _ hv

/-- A buffer splits into its C string, and, unless it holds no NUL, the NUL and the rest. -/
theorem c_string_split (s : List Nat) :
    s = c_string s ∨ ∃ rest, s = c_string s ++ 0 :: rest := by
  induction s with
  | nil => left; rfl
  | cons a s ih =>
    by_cases ha : a = 0
    · right
      exact ⟨s, by simp [c_string, ha]⟩
    · have hcs : c_string (a :: s) = a :: c_string s := by
        simp [c_string, List.takeWhile_cons, ha]
      rcases ih with h | ⟨rest, h⟩
      · left; rw [hcs, ← h]
      · right; exact ⟨rest, by rw [hcs, List.cons_append, ← h]⟩

theorem c_string_ne_zero (s : List Nat) : ∀ c ∈ c_string s, c ≠ 0 := by
  intro c hc
  have := List.mem_takeWhile_imp hc
  simpa using this

theorem _atoi_sign_nul (t rest : List Nat) : ∀ sign : Int,
    _atoi_sign (t ++ 0 :: rest) sign =
      ((_atoi_sign t sign).1, (_atoi_sign t sign).2 ++ 0 :: rest) := by
  induction t with
  | nil => intro sign; simp [_atoi_sign]
  | cons c t ih =>
    intro sign
    rw [List.cons_append]
    by_cases h : ¬ (48 ≤ c ∧ c ≤ 57) ∧ c ≠ 0
    · simp only [_atoi_sign, if_pos h, ih]
    · simp only [_atoi_sign, if_neg h, List.cons_append]

theorem _atoi_digits_nul (t rest : List Nat) (ht : ∀ c ∈ t, c ≠ 0) : ∀ var : Nat,
    _atoi_digits (t ++ 0 :: rest) var = _atoi_digits t var := by
  induction t with
  | nil => intro var; simp [_atoi_digits]
  | cons c t ih =>
    intro var
    rw [List.cons_append]
    by_cases h : 48 ≤ c ∧ c ≤ 57 ∧ c ≠ 0
    · simp only [_atoi_digits, if_pos h, ih (fun x hx => ht x (by simp [hx]))]
    · simp only [_atoi_digits, if_neg h]

theorem _atoi_sign_suffix (t : List Nat) : ∀ sign : Int,
    ∀ c ∈ (_atoi_sign t sign).2, c ∈ t := by
  induction t with
  | nil => intro sign c hc; simp [_atoi_sign] at hc
  | cons a t ih =>
    intro sign c hc
    by_cases h : ¬ (48 ≤ a ∧ a ≤ 57) ∧ a ≠ 0
    · simp only [_atoi_sign, if_pos h] at hc
      exact List.mem_cons_of_mem _ (ih _ c hc)
    · simpa only [_atoi_sign, if_neg h] using hc

/-- The function `_atoi` reads its argument only up to the first NUL. -/
theorem _atoi_c_string (s : List Nat) : _atoi s = _atoi (c_string s) := by
  rcases c_string_split s with h | ⟨rest, h⟩
  · rw [← h]
  · have hz := c_string_ne_zero s
    generalize c_string s = t at h hz
    subst h
    have h2 := _atoi_digits_nul (_atoi_sign t 1).2 rest
      (fun c hc => hz c (_atoi_sign_suffix t 1 c hc)) 0
    simp only [_atoi, _atoi_sign_nul, h2]

theorem _atoi_no_digit (t : List Nat) (ht : ∀ c ∈ t, ¬ (48 ≤ c ∧ c ≤ 57)) : ∀ sign : Int,
    _atoi_digits (_atoi_sign t sign).2 0 = 0 := by
  induction t with
  | nil => intro sign; simp [_atoi_sign, _atoi_digits]
  | cons c t ih =>
    intro sign
    have hc := ht c (by simp)
    by_cases h0 : c = 0
    · subst h0
      simp [_atoi_sign, _atoi_digits]
    · have h : ¬ (48 ≤ c ∧ c ≤ 57) ∧ c ≠ 0 := ⟨hc, h0⟩
      simp only [_atoi_sign, if_pos h]
      exact ih (fun x hx => ht x (by simp [hx])) _

/-! ## `count_characters` lemmas -/

theorem c_string_cons (x : Nat) (s : List Nat) :
    c_string (x :: s) = if x = 0 then [] else x :: c_string s := by
  by_cases h : x = 0 <;> simp [c_string, List.takeWhile_cons, h]

theorem count_characters_loop_spec (c0 : Nat) : ∀ (s : List Nat) (i count : Int),
    0 ≤ count → count ≤ i → i + (c_string s).length ≤ INT_MAX →
      count_characters_loop c0 s i count = some (count + ((c_string s).count c0 : Nat)) := by
  intro s
  induction s with
  | nil => intro i count _ _ _; simp [count_characters_loop, c_string]
  | cons x s ih =>
    intro i count h0 hle hlen
    by_cases hx : x = 0
    · simp [count_characters_loop, c_string_cons, hx]
    · rw [c_string_cons, if_neg hx] at hlen ⊢
      simp only [List.length_cons, Nat.cast_add, Nat.cast_one] at hlen
      have hi : ¬ (i + 1 > INT_MAX) := by omega
      by_cases hc : x = c0
      · have hcount : ¬ (count + 1 > INT_MAX) := by omega
        rw [count_characters_loop, if_neg hx, if_pos hc, if_neg hcount, if_neg hi,
          ih (i + 1) (count + 1) (by omega) (by omega) (by omega)]
        subst hc
        simp only [List.count_cons_self, Nat.cast_add, Nat.cast_one]
        congr 1
        ring
      · rw [count_characters_loop, if_neg hx, if_neg hc, if_neg hi,
          ih (i + 1) count h0 (by omega) (by omega), List.count_cons_of_ne (Ne.symm hc)]

theorem count_characters_loop_overflow (c0 : Nat) : ∀ (s : List Nat) (i count : Int),
    i ≤ INT_MAX → INT_MAX < i + (c_string s).length →
      count_characters_loop c0 s i count = none := by
  intro s
  induction s with
  | nil =>
    intro i count hi hlen
    simp [c_string] at hlen
    omega
  | cons x s ih =>
    intro i count hi hlen
    by_cases hx : x = 0
    · simp [c_string_cons, hx] at hlen
      omega
    · rw [c_string_cons, if_neg hx] at hlen
      simp only [List.length_cons, Nat.cast_add, Nat.cast_one] at hlen
      by_cases hi1 : i + 1 > INT_MAX
      · by_cases hc : x = c0
        · by_cases hcount : count + 1 > INT_MAX
          · rw [count_characters_loop, if_neg hx, if_pos hc, if_pos hcount]
          · rw [count_characters_loop, if_neg hx, if_pos hc, if_neg hcount, if_pos hi1]
        · rw [count_characters_loop, if_neg hx, if_neg hc, if_pos hi1]
      · have hrec := fun k => ih (i + 1) k (by omega) (by omega)
        by_cases hc : x = c0
        · by_cases hcount : count + 1 > INT_MAX
          · rw [count_characters_loop, if_neg hx, if_pos hc, if_pos hcount]
          · rw [count_characters_loop, if_neg hx, if_pos hc, if_neg hcount, if_neg hi1, hrec]
        · rw [count_characters_loop, if_neg hx, if_neg hc, if_neg hi1, hrec]

theorem c_string_replicate (k c : Nat) (hc : c ≠ 0) :
    c_string (List.replicate k c) = List.replicate k c := by
  induction k with
  | zero => rfl
  | succ k ih => rw [List.replicate_succ, c_string_cons, if_neg hc, ih]

/-! ## Decimal text -/

theorem toDigitsCore_digits : ∀ (fuel n : Nat) (ds : List Char), n < fuel → 0 < n →
    Nat.toDigitsCore 10 fuel n ds = ((Nat.digits 10 n).reverse).map Nat.digitChar ++ ds := by
  intro fuel
  induction fuel with
  | zero => intro n ds h; omega
  | succ fuel ih =>
    intro n ds hlt hpos
    rw [Nat.toDigitsCore, Nat.digits_def' (by omega) hpos]
    by_cases h0 : n / 10 = 0
    · simp [h0]
    · have hlt2 : n / 10 < fuel := by omega
      simp only [if_neg h0]
      rw [ih (n / 10) _ hlt2 (by omega)]
      simp

theorem digitChar_toNat (d : Nat) (hd : d < 10) : (Nat.digitChar d).toNat = d + 48 := by
  interval_cases d <;> rfl

/-- The list `decimal n` is the text Lean itself prints for `n`. -/
theorem decimal_eq_repr (n : Nat) : decimal n = bytes (Nat.repr n) := by
  by_cases hn : n = 0
  · subst hn; rfl
  · have h := toDigitsCore_digits (n + 1) n [] (by omega) (by omega)
    simp only [decimal, if_neg hn, bytes, Nat.repr, Nat.toDigits, h, List.append_nil,
      List.asString]
    show _ = List.map Char.toNat (List.map Nat.digitChar (Nat.digits 10 n).reverse)
    rw [List.map_map]
    apply List.map_congr_left
    intro d hd
    exact (digitChar_toNat d (Nat.digits_lt_base (by omega) (List.mem_reverse.mp hd))).symm

theorem load_zeroed (buf : List Nat) (h : ∀ c ∈ buf, c = 0) : load buf 0 = 0 := by
  cases buf with
  | nil => rfl
  | cons a t => simpa [load] using h a (by simp)

theorem _atoi_digit_text (t : List Nat) (hne : t ≠ [])
    (ht : ∀ c ∈ t, 48 ≤ c ∧ c ≤ 57) (hv : numeral_value 10 t ≤ 2147483647) :
    _atoi t = numeral_value 10 t := by
  have hz : ∀ c ∈ t, c ≠ 0 := fun c hc => by have := ht c hc; omega
  have h := _atoi_c_string (t ++ 0 :: [])
  rw [c_string_append_nul t [] hz] at h
  rw [← h]
  exact _atoi_digit_string t [] hne ht hv

theorem decimal_digits (m : Nat) : ∀ c ∈ decimal m, 48 ≤ c ∧ c ≤ 57 := by
  intro c hc
  rw [← numeral_ten] at hc
  have h := numeral_letters 10 m (by decide) (by decide) c hc
  have h1 := h.1
  have h2 := h.2
  simp only [is_letter, Bool.or_eq_true, Bool.and_eq_true, decide_eq_true_eq] at h1
  unfold digit_value at h2
  split at h2 <;> omega

theorem count_characters_replicate_overflow (k : Nat) (hk : 2147483647 < k) :
    count_characters (List.replicate k 97) [97] = none ∧
      (c_string (List.replicate k 97)).count 97 = k := by
  constructor
  · apply count_characters_loop_overflow
    · decide
    · rw [c_string_replicate k 97 (by decide), List.length_replicate]
      unfold INT_MAX
      omega
  · rw [c_string_replicate k 97 (by decide), List.count_replicate_self]

/-! ## Main results -/

/-- Without room there is no result: in a base from 2 to 16, with a first byte other
than `'-'`, a buffer no longer than the text gives a store outside the buffer. -/
theorem long_to_string_no_room (n : Int) (buf : List Nat) (b : Nat) (hb : 2 ≤ b) (hb16 : b ≤ 16)
    (hfirst : load buf 0 ≠ 45) (hroom : buf.length ≤ (numeral b n.natAbs).length) :
    long_to_string n buf b = none := by
  rw [long_to_string_spec n buf b hb hb16, long_to_string_text_plain n _ b hfirst,
    if_neg (by omega)]

/-- C1, as stated, fails: the two-byte buffer `{7, 7}` does not start with `'-'`, and
`long_to_string(LONG_MAX, buf, 10)` stores nineteen digits and a NUL, so it writes
outside the buffer and leaves no defined result. -/
theorem long_to_string_small_buffer :
    (0 : Int) ≤ 9223372036854775807 ∧ (9223372036854775807 : Int) ≤ LONG_MAX ∧
      load [7, 7] 0 ≠ 45 ∧ long_to_string 9223372036854775807 [7, 7] 10 = none := by
  refine ⟨?_, ?_, ?_, ?_⟩ <;> decide

/-- C1, amended: for `0 ≤ n ≤ LONG_MAX` and a buffer with room for the decimal text
of `n` and its terminating NUL whose first byte is not `'-'`,
`long_to_string(n, buf, 10)` returns and leaves in the buffer the canonical decimal text
of `n` (`"0"` for zero, else the digits most significant first, no leading zero,
no sign), followed by the terminating NUL; that text is what `Nat.repr` prints. -/
theorem long_to_string_canonical_decimal (n : Int) (buf : List Nat)
    (h0 : 0 ≤ n) (_hmax : n ≤ LONG_MAX) (hfirst : load buf 0 ≠ 45)
    (hroom : (decimal n.toNat).length < buf.length) :
    ∃ out, long_to_string n buf 10 = some out ∧
      out = decimal n.toNat ++ 0 :: buf.drop ((decimal n.toNat).length + 1) ∧
      c_string out = decimal n.toNat ∧
      decimal n.toNat = bytes (Nat.repr n.toNat) := by
  have hspec := long_to_string_spec n buf 10 (by decide) (by decide)
  have habs : n.natAbs = n.toNat := by omega
  rw [long_to_string_text_plain n _ 10 hfirst, numeral_ten, habs, if_pos hroom] at hspec
  refine ⟨_, hspec, rfl, ?_, decimal_eq_repr _⟩
  apply c_string_append_nul
  intro c hc
  have := decimal_digits _ c hc
  omega

theorem long_to_string_canonical_decimal_witness :
    (0 : Int) ≤ 9223372036854775807 ∧ (9223372036854775807 : Int) ≤ LONG_MAX ∧
      load (List.replicate 20 7) 0 ≠ 45 ∧
      (decimal (9223372036854775807 : Int).toNat).length < (List.replicate 20 7).length ∧
      ∃ out, long_to_string 9223372036854775807 (List.replicate 20 7) 10 = some out ∧
        out = decimal (9223372036854775807 : Int).toNat ++
          0 :: List.drop ((decimal (9223372036854775807 : Int).toNat).length + 1)
            (List.replicate 20 7) ∧
        c_string out = decimal (9223372036854775807 : Int).toNat ∧
        decimal (9223372036854775807 : Int).toNat =
          bytes (Nat.repr (9223372036854775807 : Int).toNat) :=
  ⟨by decide, by decide, by decide, by simp [decimal],
    long_to_string_canonical_decimal 9223372036854775807 (List.replicate 20 7)
      (by decide) (by decide) (by decide) (by simp [decimal])⟩

/-- C2: for memory holding a non-empty string of decimal digits (leading zeros
allowed) whose value `v` is at most 2147483647, `_atoi(s)` returns exactly `v`. -/
theorem atoi_value_of_digits (s : List Nat) (hne : c_string s ≠ [])
    (hdig : ∀ c ∈ c_string s, 48 ≤ c ∧ c ≤ 57)
    (hv : numeral_value 10 (c_string s) ≤ 2147483647) :
    _atoi s = numeral_value 10 (c_string s) := by
  rw [_atoi_c_string s]
  exact _atoi_digit_text (c_string s) hne hdig hv

theorem atoi_value_of_digits_witness :
    c_string (bytes "0002147483647") ≠ [] ∧
      (∀ c ∈ c_string (bytes "0002147483647"), 48 ≤ c ∧ c ≤ 57) ∧
      numeral_value 10 (c_string (bytes "0002147483647")) ≤ 2147483647 ∧
      _atoi (bytes "0002147483647") = numeral_value 10 (c_string (bytes "0002147483647")) :=
  ⟨by decide, by decide, by decide,
    atoi_value_of_digits (bytes "0002147483647") (by decide) (by decide) (by decide)⟩

/-- C3: for memory holding a string without any decimal digit (the empty string,
signs, letters, anything else), `_atoi(s)` returns 0. -/
theorem atoi_without_digit_is_zero (s : List Nat)
    (h : ∀ c ∈ c_string s, ¬ (48 ≤ c ∧ c ≤ 57)) : _atoi s = 0 := by
  rw [_atoi_c_string s]
  have hd := _atoi_no_digit (c_string s) h 1
  simp only [_atoi, hd, Nat.zero_mul]
  rfl

theorem atoi_without_digit_is_zero_witness :
    (∀ c ∈ c_string (bytes "-+-x y"), ¬ (48 ≤ c ∧ c ≤ 57)) ∧ _atoi (bytes "-+-x y") = 0 :=
  ⟨by decide, atoi_without_digit_is_zero (bytes "-+-x y") (by decide)⟩

/-- C4, as stated, fails: on a string of 2147483648 letters `'a'` the `int` counters of
`count_characters` overflow (no result), while the number of positions holding
`'a'` is 2147483648, more than an `int` can hold. -/
theorem count_characters_long_string :
    count_characters (List.replicate 2147483648 97) [97] = none ∧
      (c_string (List.replicate 2147483648 97)).count 97 = 2147483648 :=
  count_characters_replicate_overflow 2147483648 (by decide)

/-- C4, amended: for every NUL-terminated string `s` of length at most `INT_MAX`
and every `c`, `count_characters(s, c)` returns the number of positions of `s` that hold
`c[0]`; it is 0 for the empty string, at most the length of `s`, and non-zero
exactly when `c[0]` occurs in `s`. -/
theorem count_characters_counts (s c : List Nat) (hlen : (c_string s).length ≤ 2147483647) :
    count_characters s c = some (((c_string s).count (load c 0) : Nat) : Int) ∧
      (c_string s = [] → count_characters s c = some 0) ∧
      (c_string s).count (load c 0) ≤ (c_string s).length ∧
      ((c_string s).count (load c 0) ≠ 0 ↔ load c 0 ∈ c_string s) := by
  have hmain : count_characters s c = some (((c_string s).count (load c 0) : Nat) : Int) := by
    have h := count_characters_loop_spec (load c 0) s 0 0 le_rfl le_rfl
      (by unfold INT_MAX; omega)
    simpa [count_characters] using h
  refine ⟨hmain, ?_, List.count_le_length _ _, ?_⟩
  · intro he
    rw [hmain, he]
    rfl
  · rw [Nat.ne_zero_iff_zero_lt, List.count_pos_iff]

theorem count_characters_counts_witness :
    (c_string (bytes "banana")).length ≤ 2147483647 ∧
      (count_characters (bytes "banana") (bytes "a") =
          some (((c_string (bytes "banana")).count (load (bytes "a") 0) : Nat) : Int) ∧
        (c_string (bytes "banana") = [] → count_characters (bytes "banana") (bytes "a") = some 0) ∧
        (c_string (bytes "banana")).count (load (bytes "a") 0) ≤
          (c_string (bytes "banana")).length ∧
        ((c_string (bytes "banana")).count (load (bytes "a") 0) ≠ 0 ↔
          load (bytes "a") 0 ∈ c_string (bytes "banana"))) :=
  ⟨by decide, count_characters_counts (bytes "banana") (bytes "a") (by decide)⟩

/-- C5 fails on the code: for the negative value -57 and a zero-initialised buffer,
`long_to_string(-57, buf, 10)` leaves `"57"`, without the `'-'`; the same happens for `LONG_MIN`. -/
theorem long_to_string_negative_drops_sign :
    (long_to_string (-57) [0, 0, 0, 0, 0, 0, 0, 0] 10).map c_string = some (bytes "57") ∧
      (long_to_string LONG_MIN (List.replicate 24 0) 10).map c_string =
        some (bytes "9223372036854775808") := by
  constructor <;> decide

/-- C6 fails on the code: the text left for the value 5 in base 10 depends on the
first byte the buffer held before the call, `"-5"` after a `'-'` and `"5"` after a NUL. -/
theorem long_to_string_reads_buffer :
    (long_to_string 5 [45, 0, 0, 0] 10).map c_string = some (bytes "-5") ∧
      (long_to_string 5 [0, 0, 0, 0] 10).map c_string = some (bytes "5") ∧
      (long_to_string 5 [45, 0, 0, 0] 10).map c_string ≠
        (long_to_string 5 [0, 0, 0, 0] 10).map c_string := by
  refine ⟨?_, ?_, ?_⟩ <;> decide

/-- C7, as stated, fails: the two-byte buffer `{0, 0}` does not start with `'-'`, and
`long_to_string(48879, buf, 16)` needs five bytes for `"beef"` and the NUL, so it writes
outside the buffer and leaves no defined result. -/
theorem long_to_string_base_small_buffer :
    (0 : Int) ≤ 48879 ∧ (48879 : Int) ≤ LONG_MAX ∧ load [0, 0] 0 ≠ 45 ∧
      long_to_string 48879 [0, 0] (16 : Nat) = none := by
  refine ⟨?_, ?_, ?_, ?_⟩ <;> decide

/-- C7, amended: for `0 ≤ n ≤ LONG_MAX`, a base `b` from 2 to 16 and a buffer with
room for the base-`b` text of `n` and its terminating NUL whose first byte is not
`'-'`, `long_to_string(n, buf, b)` returns, and the string it leaves is not empty, uses
only characters of `"0123456789abcdef"` with digit value below `b`, starts with
`'0'` only if `n = 0`, and read as a base-`b` numeral has value `n`. -/
theorem long_to_string_base_numeral (n : Int) (b : Nat) (buf : List Nat)
    (h0 : 0 ≤ n) (_hmax : n ≤ LONG_MAX) (hb : 2 ≤ b) (hb16 : b ≤ 16)
    (hfirst : load buf 0 ≠ 45) (hroom : (numeral b n.toNat).length < buf.length) :
    ∃ out, long_to_string n buf b = some out ∧
      c_string out ≠ [] ∧
      (∀ c ∈ c_string out, is_letter c = true ∧ digit_value c < b) ∧
      ((c_string out).head? = some 48 → n = 0) ∧
      (numeral_value b (c_string out) : Int) = n := by
  have hspec := long_to_string_spec n buf b hb hb16
  have habs : n.natAbs = n.toNat := by omega
  rw [long_to_string_text_plain n _ b hfirst, habs, if_pos hroom] at hspec
  have hcs : c_string (numeral b n.toNat ++
      0 :: buf.drop ((numeral b n.toNat).length + 1)) = numeral b n.toNat := by
    apply c_string_append_nul
    intro c hc
    have h := (numeral_letters b n.toNat hb hb16 c hc).1
    simp only [is_letter, Bool.or_eq_true, Bool.and_eq_true, decide_eq_true_eq] at h
    omega
  refine ⟨_, hspec, ?_, ?_, ?_, ?_⟩
  · rw [hcs]
    exact numeral_ne_nil b n.toNat
  · rw [hcs]
    exact numeral_letters b n.toNat hb hb16
  · rw [hcs]
    intro h
    have := numeral_no_leading_zero b n.toNat h
    omega
  · rw [hcs, numeral_value_numeral b n.toNat hb hb16]
    omega

theorem long_to_string_base_numeral_witness :
    (0 : Int) ≤ 48879 ∧ (48879 : Int) ≤ LONG_MAX ∧ 2 ≤ 16 ∧ 16 ≤ 16 ∧
      load [0, 0, 0, 0, 0] 0 ≠ 45 ∧
      (numeral 16 (48879 : Int).toNat).length < [0, 0, 0, 0, 0].length ∧
      ∃ out, long_to_string 48879 [0, 0, 0, 0, 0] (16 : Nat) = some out ∧
        c_string out ≠ [] ∧
        (∀ c ∈ c_string out, is_letter c = true ∧ digit_value c < 16) ∧
        ((c_string out).head? = some 48 → (48879 : Int) = 0) ∧
        (numeral_value 16 (c_string out) : Int) = 48879 :=
  ⟨by decide, by decide, by decide, by decide, by decide, by simp [numeral],
    long_to_string_base_numeral 48879 16 [0, 0, 0, 0, 0]
      (by decide) (by decide) (by decide) (by decide) (by decide) (by simp [numeral])⟩

/-- C8, as stated, fails: a zero-initialised buffer of ten bytes has no room for the
ten digits of 2147483647 and the NUL, so `long_to_string(2147483647, buf, 10)` writes
outside the buffer and there is no text for `_atoi` to parse. -/
theorem atoi_roundtrip_small_buffer :
    (0 : Int) ≤ 2147483647 ∧ (2147483647 : Int) ≤ 2147483647 ∧
      (∀ c ∈ List.replicate 10 0, c = 0) ∧
      long_to_string 2147483647 (List.replicate 10 0) 10 = none := by
  refine ⟨?_, ?_, ?_, ?_⟩ <;> decide

/-- C8, amended: for `0 ≤ n ≤ 2147483647`, formatting `n` with `long_to_string(n, buf, 10)`
into a zero-initialised buffer with room for the decimal text of `n` and its
terminating NUL, and parsing the buffer with `_atoi`, gives back `n`. -/
theorem atoi_long_to_string_roundtrip (n : Int) (buf : List Nat)
    (h0 : 0 ≤ n) (hmax : n ≤ 2147483647) (hbuf : ∀ c ∈ buf, c = 0)
    (hroom : (decimal n.toNat).length < buf.length) :
    ∃ out, long_to_string n buf 10 = some out ∧ _atoi out = n := by
  have hfirst : load buf 0 ≠ 45 := by rw [load_zeroed buf hbuf]; decide
  have hspec := long_to_string_spec n buf 10 (by decide) (by decide)
  have habs : n.natAbs = n.toNat := by omega
  rw [long_to_string_text_plain n _ 10 hfirst, habs, if_pos (by rw [numeral_ten]; exact hroom)]
    at hspec
  have hval := numeral_value_numeral 10 n.toNat (by decide) (by decide)
  refine ⟨_, hspec, ?_⟩
  rw [_atoi_digit_string (numeral 10 n.toNat) _ (numeral_ne_nil 10 n.toNat)
    (by rw [numeral_ten]; exact decimal_digits _) (by rw [hval]; omega), hval]
  omega

theorem atoi_long_to_string_roundtrip_witness :
    (0 : Int) ≤ 2147483647 ∧ (2147483647 : Int) ≤ 2147483647 ∧
      (∀ c ∈ List.replicate 11 0, c = 0) ∧
      (decimal (2147483647 : Int).toNat).length < (List.replicate 11 0).length ∧
      ∃ out, long_to_string 2147483647 (List.replicate 11 0) 10 = some out ∧
        _atoi out = 2147483647 :=
  ⟨by decide, by decide, by decide, by simp [decimal],
    atoi_long_to_string_roundtrip 2147483647 (List.replicate 11 0)
      (by decide) (by decide) (by decide) (by simp [decimal])⟩

end SimpleShell
